import Mathlib

/-!
Verification of the AI-Diary backend (src/main.py) against its specification.

The embedding models Python strings as lists of characters, Firestore documents
as Lean structures with `Option`-valued fields (absent vs present, and present
fields may hold null, modelled as a nested `Option`), and server time as an
explicit parameter.
-/

namespace AIDiary

/-- Python whitespace class shared by str.split, str.strip and the regex class
for whitespace (ASCII part, which is all the service ever stores). -/
def pyIsSpace (c : Char) : Bool :=
  c = ' ' || c = '\t' || c = '\n' || c = '\r' || c = '\x0b' || c = '\x0c'

/-- Recursion core of pySplit; the fuel argument (always instantiated with the
length of the list) keeps the recursion structural so that the kernel can
evaluate it. -/
def pySplitF : Nat → List Char → List (List Char)
  | _, [] => []
  | 0, _ :: _ => []
  | fuel + 1, c :: cs =>
    if pyIsSpace c then pySplitF fuel cs
    else (c :: cs.takeWhile (fun d => !pyIsSpace d)) ::
      pySplitF fuel (cs.dropWhile (fun d => !pyIsSpace d))

/-- Python text.split() with no argument: split on runs of whitespace, dropping
empty pieces. -/
def pySplit (l : List Char) : List (List Char) :=
  pySplitF l.length l

/-- Python " ".join over a list of words (as character lists). -/
def joinWords : List (List Char) → List Char
  | [] => []
  | [w] => w
  | w :: ws => w ++ ' ' :: joinWords ws

/-- Python range(start, stop, step) for a positive step, as a list of indices;
the source uses range(0, len(words), max_tokens). -/
def pyRange (start stop step : Nat) : List Nat :=
  (List.range ((stop - start + step - 1) / step)).map (fun k => start + k * step)

/-- First pass of chunk_text in src/main.py: greedily accumulate words until the
joined chunk reaches max_tokens characters; the source computes this list and
then discards it (the return statement does not use it). -/
def accumChunks (words : List (List Char)) (max_tokens : Nat) : List (List Char) :=
  let p := words.foldl
    (fun acc word =>
      let current := acc.2 ++ [word]
      if max_tokens ≤ (joinWords current).length then (acc.1 ++ [joinWords current], ([] : List (List Char)))
      else (acc.1, current))
    (([], []) : List (List Char) × List (List Char))
  if p.2.isEmpty then p.1 else p.1 ++ [joinWords p.2]

/-- chunk_text from src/main.py: split text into words, run the character-budget
accumulation (whose result is unused, exactly as in the source), and return the
comprehension over range(0, len(words), max_tokens) joining words[i:i + max_tokens]. -/
def chunk_text (text : List Char) (max_tokens : Nat) : List (List Char) :=
  let words := pySplit text
  let _chunks := accumChunks words max_tokens
  (pyRange 0 words.length max_tokens).map (fun i => joinWords ((words.drop i).take max_tokens))

/-- Recursion core of chunkGroups; the fuel argument (always instantiated with
the length of the list) keeps the recursion structural. -/
def chunkGroupsF {α : Type} (B : Nat) : Nat → List α → List (List α)
  | _, [] => []
  | 0, _ :: _ => []
  | fuel + 1, x :: xs => (x :: xs.take (B - 1)) :: chunkGroupsF B fuel (xs.drop (B - 1))

/-- Grouping of a word list into consecutive groups of B words; this follows the
wording of the specification (group consecutive words into B-word groups) and is
compared against chunk_text, which is translated from the source. -/
def chunkGroups {α : Type} (B : Nat) (l : List α) : List (List α) :=
  chunkGroupsF B l.length l

/-- Python str.strip(): remove leading and trailing whitespace. -/
def pyStrip (l : List Char) : List Char :=
  ((l.dropWhile pyIsSpace).reverse.dropWhile pyIsSpace).reverse

/-- sanitize_text from src/main.py: the regex substitution removes every
character that is not an ASCII letter, digit or whitespace, then strip() trims
whitespace at both ends. -/
def sanitize_text (l : List Char) : List Char :=
  pyStrip (l.filter (fun c => c.isAlphanum || pyIsSpace c))

/-- Python answer.strip().lower() as used by verify_answer. -/
def pyStripLower (s : String) : String :=
  String.mk ((pyStrip s.toList).map Char.toLower)

structure Message where
  text : String
  timestamp : Int
deriving DecidableEq, Repr

/-- A per-day chat document. store_chat only ever writes the messages array; the
document-level timestamp field exists in the document model (the summarization
query filters on it) but no code path of the service ever sets it. -/
structure ChatDoc where
  messages : List Message
  timestamp : Option Int
deriving DecidableEq, Repr

structure Profile where
  name : String
  pfp : String
deriving DecidableEq, Repr

structure Riddle where
  question : String
  answer : String
deriving DecidableEq, Repr

/-- The per-user document together with its sub-collections. Fields are Option
valued: none models an absent Firestore field, and the riddle fields are doubly
optional because a present field may hold null (get_riddle writes null into
last_chat_date). -/
structure UserState where
  created_at : Option Int
  last_riddle : Option (Option String)
  last_chat_date : Option (Option String)
  profile : Option Profile
  chats : List (String × ChatDoc)
deriving DecidableEq, Repr

/-- A user that has never been written: every field absent, no chat documents. -/
def initState : UserState := ⟨none, none, none, none, []⟩

/-- The static riddle catalog from src/main.py. -/
def riddles : List Riddle :=
  [⟨"The more you take, the more you leave behind. What am I?", "footsteps"⟩,
   ⟨"I speak without a mouth and hear without ears. What am I?", "an echo"⟩]

/-- Update or insert the chat document of one day in the per-user chats
collection. -/
def setChat (day : String) (doc : ChatDoc) : List (String × ChatDoc) → List (String × ChatDoc)
  | [] => [(day, doc)]
  | (d, x) :: rest => if d = day then (d, doc) :: rest else (d, x) :: setChat day doc rest

/-- Look up the chat document of one day. -/
def getChat (day : String) : List (String × ChatDoc) → Option ChatDoc
  | [] => none
  | (d, doc) :: rest => if d = day then some doc else getChat day rest

/-- store_chat from src/main.py: set({created_at: SERVER_TIMESTAMP}, merge=True)
on the user document (Firestore merge writes every supplied field, so created_at
receives the current server time), then create the day document if missing
and ArrayUnion-append the message with the server timestamp (ArrayUnion skips an
element that is already present with identical fields). -/
def store_chat (now : Int) (today : String) (message : String) (st : UserState) : UserState :=
  let st1 : UserState := { st with created_at := some now }
  let doc := (getChat today st1.chats).getD ⟨[], none⟩
  let m : Message := ⟨message, now⟩
  let newMsgs := if m ∈ doc.messages then doc.messages else doc.messages ++ [m]
  { st1 with chats := setChat today ⟨newMsgs, doc.timestamp⟩ st1.chats }

/-- Sanitizer on Lean strings. -/
def sanitizeStr (s : String) : String := String.mk (sanitize_text s.toList)

/-- set_ai_profile from src/main.py: sanitize both fields and set them (with
merge) on the profile settings document; both fields are always supplied, so the
whole profile document is rewritten. -/
def set_ai_profile (name pfp : String) (st : UserState) : UserState :=
  { st with profile := some ⟨sanitizeStr name, sanitizeStr pfp⟩ }

/-- timedelta(days=7) in seconds. -/
def SEVEN_DAYS : Int := 7 * 24 * 60 * 60

/-- Lower bound of the summarization window: now - timedelta(days=7). -/
def windowStart (now : Int) : Int := now - SEVEN_DAYS

/-- The Firestore query of summarize_chats: chat-day documents whose top-level
timestamp field is at least seven_days_ago. A document on which the field is
absent never matches a Firestore range filter. -/
def queryChatDocs (now : Int) (st : UserState) : List ChatDoc :=
  (st.chats.map Prod.snd).filter (fun d =>
    match d.timestamp with
    | some t => decide (windowStart now ≤ t)
    | none => false)

/-- The message texts summarize_chats collects from the queried documents. -/
def retrievedMessages (now : Int) (st : UserState) : List String :=
  ((queryChatDocs now st).map (fun d => d.messages.map Message.text)).flatten

/-- Python " ".join(set(messages)): duplicates removed, then joined with single
spaces (set iteration order is modelled as first-occurrence order). -/
def dedupJoin (msgs : List String) : String := String.intercalate " " msgs.eraseDups

/-- summarize_chats from src/main.py; the external summarization model is passed
in as a function. The operation performs no writes. -/
def summarize_chats (summarizer : String → String) (now : Int) (st : UserState) : String :=
  let messages := retrievedMessages now st
  if messages.isEmpty then "No messages found in the past 7 days."
  else
    let text := dedupJoin messages
    let chunks := chunk_text text.toList 500
    String.intercalate " " (chunks.map (fun c => summarizer (String.mk c)))

/-- Number of times summarize_chats invokes the external summarizer: zero on the
early sentinel return, otherwise once per chunk. -/
def summarizerCalls (now : Int) (st : UserState) : Nat :=
  let messages := retrievedMessages now st
  if messages.isEmpty then 0 else (chunk_text (dedupJoin messages).toList 500).length

/-- Result of the get_riddle endpoint: either the already-completed message or a
riddle question. -/
inductive RiddleOut where
  | message (s : String)
  | riddle (q : String)
deriving DecidableEq, Repr

/-- Riddle candidates of get_riddle: the catalog entries whose question differs
from the previous riddle, falling back to the whole catalog when that filter
leaves nothing. -/
def availableRiddles (catalog : List Riddle) (previous : Option String) : List Riddle :=
  let avail := catalog.filter (fun r => decide ((some r.question : Option String) ≠ previous))
  if avail.isEmpty then catalog else avail

/-- get_riddle from src/main.py, generic in the catalog. random.choice is
modelled by the pick argument: the selected entry is the one at index
pick % length of the candidate list, so every candidate is selected under some
pick. -/
def get_riddle_cat (catalog : List Riddle) (today : String) (pick : Nat) (st : UserState) :
    RiddleOut × UserState :=
  if st.last_chat_date.join = some today then
    (.message "You have already ended today\x27s chat. Come back tomorrow!", st)
  else
    let avail := availableRiddles catalog st.last_riddle.join
    let sel := avail.getD (pick % avail.length) ⟨"", ""⟩
    (.riddle sel.question,
      { st with last_riddle := some (some sel.question), last_chat_date := some none })

/-- get_riddle from src/main.py over the static catalog. -/
def get_riddle (today : String) (pick : Nat) (st : UserState) : RiddleOut × UserState :=
  get_riddle_cat riddles today pick st

/-- Result of the verify_answer endpoint: HTTPException with status 400, with
status 500, or a JSON message. -/
inductive VerifyOut where
  | clientError (detail : String)
  | serverError (detail : String)
  | ok (message : String)
deriving DecidableEq, Repr

/-- verify_answer from src/main.py: 400 when the last_riddle key is absent, 500
when the recorded question matches no catalog entry, otherwise compare the
stripped lower-cased answer with the catalog answer and set last_chat_date on
success. -/
def verify_answer (today : String) (answer : String) (st : UserState) : VerifyOut × UserState :=
  match st.last_riddle with
  | none => (.clientError "You haven\x27t taken a riddle yet!", st)
  | some lr =>
    match riddles.find? (fun r => decide (lr = some r.question)) with
    | none => (.serverError "Something went wrong!", st)
    | some r =>
      if pyStripLower answer = r.answer then
        (.ok "Correct! You have successfully ended today\x27s chat. See you tomorrow!",
          { st with last_chat_date := some (some today) })
      else (.ok "Incorrect answer! Try again.", st)

/-- User states reachable from an untouched user record through the API
operations. summarize_chats performs no writes, so it does not appear as a
state-changing step. -/
inductive Reachable : UserState → Prop where
  | init : Reachable initState
  | store (now : Int) (today message : String) {st : UserState} :
      Reachable st → Reachable (store_chat now today message st)
  | profile (name pfp : String) {st : UserState} :
      Reachable st → Reachable (set_ai_profile name pfp st)
  | riddle (today : String) (pick : Nat) {st : UserState} :
      Reachable st → Reachable (get_riddle today pick st).2
  | verify (today answer : String) {st : UserState} :
      Reachable st → Reachable (verify_answer today answer st).2

example : pySplit "  hello   world ".toList = ["hello".toList, "world".toList] := by decide
example : chunk_text "a b c d e".toList 2 =
    ["a b".toList, "c d".toList, "e".toList] := by decide
example : chunk_text "".toList 2 = [] := by decide
example : sanitize_text "  a!b c?  ".toList = "ab c".toList := by decide
example : pyStripLower "  FootSteps " = "footsteps" := by rfl

/-- The fuel of pySplitF is irrelevant as long as it bounds the length. -/
theorem pySplitF_congr (f₁ : Nat) : ∀ (f₂ : Nat) (l : List Char), l.length ≤ f₁ →
    l.length ≤ f₂ → pySplitF f₁ l = pySplitF f₂ l := by
  induction f₁ with
  | zero =>
    intro f₂ l h₁ h₂
    match l with
    | [] => cases f₂ <;> rfl
    | c :: cs => simp at h₁
  | succ f ih =>
    intro f₂ l h₁ h₂
    match l with
    | [] => cases f₂ <;> rfl
    | c :: cs =>
      match f₂ with
      | 0 => simp at h₂
      | g + 1 =>
        simp only [List.length_cons, Nat.add_le_add_iff_right] at h₁ h₂
        have hd : (cs.dropWhile (fun d => !pyIsSpace d)).length ≤ cs.length :=
          (List.dropWhile_suffix _).sublist.length_le
        simp only [pySplitF]
        cases hsp : pyIsSpace c
        · simp only [Bool.false_eq_true, if_false]
          rw [ih g (cs.dropWhile (fun d => !pyIsSpace d)) (by omega) (by omega)]
        · simp only [if_true]
          exact ih g cs h₁ h₂

/-- Unfolding pySplit at a leading whitespace character. -/
theorem pySplit_cons_space {c : Char} (cs : List Char) (h : pyIsSpace c = true) :
    pySplit (c :: cs) = pySplit cs := by
  show pySplitF (cs.length + 1) (c :: cs) = pySplit cs
  simp only [pySplitF, h, if_true]
  rfl

/-- Unfolding pySplit at a leading word character. -/
theorem pySplit_cons_word {c : Char} (cs : List Char) (h : pyIsSpace c = false) :
    pySplit (c :: cs) = (c :: cs.takeWhile (fun d => !pyIsSpace d)) ::
      pySplit (cs.dropWhile (fun d => !pyIsSpace d)) := by
  show pySplitF (cs.length + 1) (c :: cs) = _
  simp only [pySplitF, h, Bool.false_eq_true, if_false]
  congr 1
  exact pySplitF_congr cs.length _ _ ((List.dropWhile_suffix _).sublist.length_le) le_rfl

/-- Every word produced by pySplitF is nonempty and free of whitespace. -/
theorem pySplitF_sound (f : Nat) : ∀ (l : List Char), ∀ w ∈ pySplitF f l,
    w ≠ [] ∧ ∀ c ∈ w, pyIsSpace c = false := by
  induction f with
  | zero =>
    intro l w hw
    cases l <;> simp [pySplitF] at hw
  | succ f ih =>
    intro l w hw
    match l with
    | [] => simp [pySplitF] at hw
    | c :: cs =>
      simp only [pySplitF] at hw
      cases hsp : pyIsSpace c
      · rw [hsp] at hw
        simp only [Bool.false_eq_true, if_false, List.mem_cons] at hw
        rcases hw with rfl | hw
        · refine ⟨by simp, ?_⟩
          intro x hx
          rcases List.mem_cons.mp hx with rfl | hx
          · exact hsp
          · have := List.mem_takeWhile_imp hx
            simpa using this
        · exact ih _ w hw
      · rw [hsp] at hw
        simp only [if_true] at hw
        exact ih cs w hw

/-- Every word produced by pySplit is nonempty and free of whitespace. -/
theorem pySplit_sound (l : List Char) : ∀ w ∈ pySplit l,
    w ≠ [] ∧ ∀ c ∈ w, pyIsSpace c = false :=
  pySplitF_sound l.length l

/-- takeWhile over a true block followed by a false element. -/
theorem takeWhile_all_append {α : Type} {p : α → Bool} (b : α) (l₂ : List α) :
    ∀ (l₁ : List α), (∀ a ∈ l₁, p a = true) → p b = false →
    (l₁ ++ b :: l₂).takeWhile p = l₁ := by
  intro l₁
  induction l₁ with
  | nil => intro _ hb; simp [List.takeWhile_cons, hb]
  | cons a t ih =>
    intro h hb
    have ha : p a = true := h a (by simp)
    simp only [List.cons_append, List.takeWhile_cons, ha, if_true]
    rw [ih (fun x hx => h x (by simp [hx])) hb]

/-- dropWhile over a true block followed by a false element. -/
theorem dropWhile_all_append {α : Type} {p : α → Bool} (b : α) (l₂ : List α) :
    ∀ (l₁ : List α), (∀ a ∈ l₁, p a = true) → p b = false →
    (l₁ ++ b :: l₂).dropWhile p = b :: l₂ := by
  intro l₁
  induction l₁ with
  | nil => intro _ hb; simp [List.dropWhile_cons, hb]
  | cons a t ih =>
    intro h hb
    have ha : p a = true := h a (by simp)
    simp only [List.cons_append, List.dropWhile_cons, ha, if_true]
    exact ih (fun x hx => h x (by simp [hx])) hb

/-- pySplit of a single nonempty whitespace-free word. -/
theorem pySplit_word (w : List Char) (hw : w ≠ []) (hall : ∀ c ∈ w, pyIsSpace c = false) :
    pySplit w = [w] := by
  match w with
  | c :: cs =>
    rw [pySplit_cons_word cs (hall c (by simp))]
    have h1 : cs.takeWhile (fun d => !pyIsSpace d) = cs := by
      rw [List.takeWhile_eq_self_iff]
      intro x hx
      simp [hall x (by simp [hx])]
    have h2 : cs.dropWhile (fun d => !pyIsSpace d) = [] := by
      rw [List.dropWhile_eq_nil_iff]
      intro x hx
      simp [hall x (by simp [hx])]
    rw [h1, h2]
    rfl

/-- pySplit of a nonempty whitespace-free word followed by a space and a rest. -/
theorem pySplit_word_append (w t : List Char) (hw : w ≠ [])
    (hall : ∀ c ∈ w, pyIsSpace c = false) :
    pySplit (w ++ ' ' :: t) = w :: pySplit t := by
  match w with
  | c :: cs =>
    have hc : pyIsSpace c = false := hall c (by simp)
    have hcs : ∀ a ∈ cs, (fun d => !pyIsSpace d) a = true := by
      intro a ha; simp [hall a (by simp [ha])]
    have hsp : (fun d => !pyIsSpace d) ' ' = false := by decide
    rw [List.cons_append, pySplit_cons_word (cs ++ ' ' :: t) hc,
      takeWhile_all_append ' ' t cs hcs hsp, dropWhile_all_append ' ' t cs hcs hsp,
      pySplit_cons_space t (by decide)]

/-- Splitting the space-joined word list recovers the word list, provided every
word is nonempty and whitespace-free. -/
theorem pySplit_joinWords : ∀ (gs : List (List Char)),
    (∀ g ∈ gs, g ≠ []) → (∀ g ∈ gs, ∀ c ∈ g, pyIsSpace c = false) →
    pySplit (joinWords gs) = gs := by
  intro gs
  induction gs with
  | nil => intro _ _; rfl
  | cons g rest ih =>
    intro h1 h2
    match rest with
    | [] => exact pySplit_word g (h1 g (by simp)) (h2 g (by simp))
    | g2 :: rest2 =>
      have hj : joinWords (g :: g2 :: rest2) = g ++ ' ' :: joinWords (g2 :: rest2) := rfl
      rw [hj, pySplit_word_append g _ (h1 g (by simp)) (h2 g (by simp)),
        ih (fun x hx => h1 x (by simp [hx])) (fun x hx => h2 x (by simp [hx]))]

/-- The fuel of chunkGroupsF is irrelevant as long as it bounds the length. -/
theorem chunkGroupsF_congr {α : Type} (B : Nat) (f₁ : Nat) : ∀ (f₂ : Nat) (l : List α),
    l.length ≤ f₁ → l.length ≤ f₂ → chunkGroupsF B f₁ l = chunkGroupsF B f₂ l := by
  induction f₁ with
  | zero =>
    intro f₂ l h₁ h₂
    match l with
    | [] => cases f₂ <;> rfl
    | x :: xs => simp at h₁
  | succ f ih =>
    intro f₂ l h₁ h₂
    match l with
    | [] => cases f₂ <;> rfl
    | x :: xs =>
      match f₂ with
      | 0 => simp at h₂
      | g + 1 =>
        simp only [List.length_cons, Nat.add_le_add_iff_right] at h₁ h₂
        simp only [chunkGroupsF]
        congr 1
        exact ih g (xs.drop (B - 1)) (by simp; omega) (by simp; omega)

/-- Unfolding chunkGroups on a nonempty list. -/
theorem chunkGroups_cons {α : Type} (B : Nat) (x : α) (xs : List α) :
    chunkGroups B (x :: xs) = (x :: xs.take (B - 1)) :: chunkGroups B (xs.drop (B - 1)) := by
  show chunkGroupsF B (xs.length + 1) (x :: xs) = _
  simp only [chunkGroupsF]
  congr 1
  exact chunkGroupsF_congr B xs.length _ _ (by simp) le_rfl

/-- chunkGroups is empty exactly on the empty list. -/
theorem chunkGroups_eq_nil_iff {α : Type} (B : Nat) (l : List α) :
    chunkGroups B l = [] ↔ l = [] := by
  match l with
  | [] => simp [chunkGroups, chunkGroupsF]
  | x :: xs => rw [chunkGroups_cons]; simp

/-- Concatenating the groups recovers the original list. -/
theorem chunkGroups_flatten {α : Type} (B : Nat) (l : List α) :
    (chunkGroups B l).flatten = l := by
  suffices h : ∀ (f : Nat) (l : List α), l.length ≤ f → (chunkGroupsF B f l).flatten = l from
    h l.length l le_rfl
  intro f
  induction f with
  | zero =>
    intro l h
    match l with
    | [] => rfl
    | x :: xs => simp at h
  | succ f ih =>
    intro l h
    match l with
    | [] => rfl
    | x :: xs =>
      simp only [List.length_cons, Nat.add_le_add_iff_right] at h
      simp only [chunkGroupsF, List.flatten_cons]
      rw [ih (xs.drop (B - 1)) (by simp; omega)]
      simp [List.take_append_drop]

/-- Ceiling-division step used by the chunk count. -/
theorem ceil_div_succ (n B : Nat) (hB : 0 < B) :
    (n + 1 + B - 1) / B = 1 + (n - (B - 1) + B - 1) / B := by
  obtain ⟨B', rfl⟩ : ∃ B', B = B' + 1 := ⟨B - 1, by omega⟩
  rcases le_or_lt B' n with h | h
  · have h1 : n + 1 + (B' + 1) - 1 = n + (B' + 1) := by omega
    have h2 : n - (B' + 1 - 1) + (B' + 1) - 1 = n := by omega
    rw [h1, h2, Nat.add_div_right _ (by omega)]
    omega
  · have h1 : n - (B' + 1 - 1) + (B' + 1) - 1 = B' := by omega
    have h2 : B' / (B' + 1) = 0 := Nat.div_eq_of_lt (by omega)
    have h3 : (n + 1 + (B' + 1) - 1) / (B' + 1) = 1 := by
      apply Nat.div_eq_of_lt_le <;> omega
    rw [h1, h2, h3]

/-- Number of groups is the ceiling of length over B. -/
theorem chunkGroups_length {α : Type} (B : Nat) (hB : 0 < B) (l : List α) :
    (chunkGroups B l).length = (l.length + B - 1) / B := by
  suffices h : ∀ (f : Nat) (l : List α), l.length ≤ f →
      (chunkGroupsF B f l).length = (l.length + B - 1) / B from h l.length l le_rfl
  intro f
  induction f with
  | zero =>
    intro l h
    match l with
    | [] =>
      simp only [chunkGroupsF, List.length_nil, Nat.zero_add]
      exact (Nat.div_eq_of_lt (by omega)).symm
    | x :: xs => simp at h
  | succ f ih =>
    intro l h
    match l with
    | [] =>
      simp only [chunkGroupsF, List.length_nil, Nat.zero_add]
      exact (Nat.div_eq_of_lt (by omega)).symm
    | x :: xs =>
      simp only [List.length_cons, Nat.add_le_add_iff_right] at h
      simp only [chunkGroupsF, List.length_cons]
      rw [ih (xs.drop (B - 1)) (by simp; omega), List.length_drop]
      rw [ceil_div_succ xs.length B hB]
      omega

/-- Every group is nonempty. -/
theorem chunkGroups_ne_nil {α : Type} (B : Nat) (l : List α) :
    ∀ g ∈ chunkGroups B l, g ≠ [] := by
  suffices h : ∀ (f : Nat) (l : List α), l.length ≤ f →
      ∀ g ∈ chunkGroupsF B f l, g ≠ [] from h l.length l le_rfl
  intro f
  induction f with
  | zero =>
    intro l h g hg
    match l with
    | [] => simp [chunkGroupsF] at hg
    | x :: xs => simp at h
  | succ f ih =>
    intro l h g hg
    match l with
    | [] => simp [chunkGroupsF] at hg
    | x :: xs =>
      simp only [List.length_cons, Nat.add_le_add_iff_right] at h
      simp only [chunkGroupsF, List.mem_cons] at hg
      rcases hg with rfl | hg
      · simp
      · exact ih (xs.drop (B - 1)) (by simp; omega) g hg

/-- Elements of a group are elements of the original list. -/
theorem chunkGroups_subset {α : Type} (B : Nat) (l : List α) :
    ∀ g ∈ chunkGroups B l, ∀ a ∈ g, a ∈ l := by
  intro g hg a ha
  have : a ∈ (chunkGroups B l).flatten := List.mem_flatten_of_mem hg ha
  rwa [chunkGroups_flatten] at this

/-- Every group except possibly the last one has exactly B elements. -/
theorem chunkGroups_sizes {α : Type} (B : Nat) (hB : 0 < B) (l : List α) :
    ∀ i (h : i + 1 < (chunkGroups B l).length),
      ((chunkGroups B l).get ⟨i, by omega⟩).length = B := by
  suffices h : ∀ (f : Nat) (l : List α), l.length ≤ f →
      ∀ i (h : i + 1 < (chunkGroupsF B f l).length),
        ((chunkGroupsF B f l).get ⟨i, by omega⟩).length = B from h l.length l le_rfl
  intro f
  induction f with
  | zero =>
    intro l hl i h
    match l with
    | [] => simp [chunkGroupsF] at h
    | x :: xs => simp at hl
  | succ f ih =>
    intro l hl i h
    match l with
    | [] => simp [chunkGroupsF] at h
    | x :: xs =>
      simp only [List.length_cons, Nat.add_le_add_iff_right] at hl
      simp only [chunkGroupsF] at h ⊢
      match i with
      | 0 =>
        simp only [List.get]
        have hrest : chunkGroupsF B f (xs.drop (B - 1)) ≠ [] := by
          intro hnil
          rw [hnil] at h
          simp at h
        have hdrop : xs.drop (B - 1) ≠ [] := by
          intro hnil
          rw [hnil] at hrest
          cases f <;> simp [chunkGroupsF] at hrest
        have hlen : B - 1 < xs.length := by
          by_contra hc
          exact hdrop (List.drop_eq_nil_iff.mpr (by omega))
        simp only [List.length_cons, List.length_take]
        omega
      | j + 1 =>
        simp only [List.length_cons, Nat.add_lt_add_iff_right] at h
        rw [List.get_cons_succ]
        exact ih (xs.drop (B - 1)) (by simp; omega) j h

/-- The comprehension over range(0, len(l), B) taking B-element slices is the
grouping into consecutive B-element groups. -/
theorem pyRange_chunkGroups {α : Type} (B : Nat) (hB : 0 < B) :
    ∀ (f : Nat) (l : List α), l.length ≤ f →
    (pyRange 0 l.length B).map (fun i => (l.drop i).take B) = chunkGroups B l := by
  obtain ⟨B', rfl⟩ : ∃ B', B = B' + 1 := ⟨B - 1, by omega⟩
  intro f
  induction f with
  | zero =>
    intro l h
    match l with
    | [] =>
      have h0 : B' / (B' + 1) = 0 := Nat.div_eq_of_lt (by omega)
      simp [pyRange, h0, chunkGroups, chunkGroupsF]
    | x :: xs => simp at h
  | succ f ih =>
    intro l h
    match l with
    | [] =>
      have h0 : B' / (B' + 1) = 0 := Nat.div_eq_of_lt (by omega)
      simp [pyRange, h0, chunkGroups, chunkGroupsF]
    | x :: xs =>
      simp only [List.length_cons, Nat.add_le_add_iff_right] at h
      have hm : (xs.length + 1 - 0 + (B' + 1) - 1) / (B' + 1) =
          (xs.length - B' + (B' + 1) - 1) / (B' + 1) + 1 := by
        have hnum : xs.length + 1 - 0 + (B' + 1) - 1 = xs.length + 1 + (B' + 1) - 1 := by omega
        rw [hnum, ceil_div_succ xs.length (B' + 1) (by omega)]
        have hnum2 : xs.length - (B' + 1 - 1) = xs.length - B' := by omega
        rw [hnum2, Nat.add_comm]
      unfold pyRange
      rw [List.map_map, List.length_cons, hm, List.range_succ_eq_map, List.map_cons,
        List.map_map, chunkGroups_cons]
      congr 1
      · simp only [Function.comp_apply, Nat.zero_mul, Nat.add_zero, List.drop_zero,
          Nat.add_sub_cancel, List.take_succ_cons]
      · have hlen : (xs.drop (B' + 1 - 1)).length ≤ f := by simp; omega
        have hih := ih (xs.drop (B' + 1 - 1)) hlen
        unfold pyRange at hih
        rw [List.map_map] at hih
        have hlen2 : (xs.drop (B' + 1 - 1)).length = xs.length - B' := by simp
        rw [hlen2] at hih
        have hnum3 : xs.length - B' - 0 + (B' + 1) - 1 = xs.length - B' + (B' + 1) - 1 := by
          omega
        rw [hnum3] at hih
        rw [← hih]
        apply List.map_congr_left
        intro k hk
        simp only [Function.comp_apply, Nat.succ_eq_add_one, Nat.add_sub_cancel]
        have harith : 0 + (k + 1) * (B' + 1) = (B' + (0 + k * (B' + 1))) + 1 := by ring
        rw [harith, List.drop_succ_cons, List.drop_drop]

/-- chunk_text is exactly the space-join of the B-word groups of the word list;
in particular the discarded character-budget accumulation pass has no effect on
the result. -/
theorem chunk_text_eq (text : List Char) (B : Nat) (hB : 0 < B) :
    chunk_text text B = (chunkGroups B (pySplit text)).map joinWords := by
  show (pyRange 0 (pySplit text).length B).map
      (fun i => joinWords (((pySplit text).drop i).take B)) = _
  rw [← pyRange_chunkGroups B hB (pySplit text).length (pySplit text) le_rfl, List.map_map]
  rfl

/-- Joining a nonempty group of nonempty words is nonempty. -/
theorem joinWords_ne_nil (g : List (List Char)) (hg : g ≠ []) (hw : ∀ w ∈ g, w ≠ []) :
    joinWords g ≠ [] := by
  match g with
  | [w] => exact hw w (by simp)
  | w :: x :: t =>
    show w ++ ' ' :: joinWords (x :: t) ≠ []
    simp

/-- C1: for every text and budget B > 0, chunk_text equals the space-joins of
the B-word groups of the whitespace-split word list: the chunk count is the
ceiling of N over B for N words, every chunk but the last splits back into
exactly B words, concatenating the chunks in order reproduces the word
sequence, no chunk is empty, and zero words give the empty sequence; the
grouping the result is compared against never mentions the discarded
character-budget accumulation, so that pass has no effect on the result. -/
theorem chunk_text_spec (text : List Char) (B : Nat) (hB : 0 < B) :
    chunk_text text B = (chunkGroups B (pySplit text)).map joinWords ∧
    (chunk_text text B).length = ((pySplit text).length + B - 1) / B ∧
    (∀ i (h : i + 1 < (chunk_text text B).length),
      (pySplit ((chunk_text text B).get ⟨i, by omega⟩)).length = B) ∧
    ((chunk_text text B).map pySplit).flatten = pySplit text ∧
    (∀ c ∈ chunk_text text B, c ≠ []) ∧
    (pySplit text = [] → chunk_text text B = []) := by
  have heq := chunk_text_eq text B hB
  have hround : ∀ g ∈ chunkGroups B (pySplit text), pySplit (joinWords g) = g := by
    intro g hg
    apply pySplit_joinWords
    · intro w hw
      exact (pySplit_sound text w (chunkGroups_subset B _ g hg w hw)).1
    · intro w hw
      exact (pySplit_sound text w (chunkGroups_subset B _ g hg w hw)).2
  refine ⟨heq, ?_, ?_, ?_, ?_, ?_⟩
  · rw [heq, List.length_map, chunkGroups_length B hB]
  · intro i h
    have hlen : i + 1 < (chunkGroups B (pySplit text)).length := by
      rw [heq, List.length_map] at h
      exact h
    have hget : (chunk_text text B).get ⟨i, by omega⟩ =
        joinWords ((chunkGroups B (pySplit text)).get ⟨i, by omega⟩) := by
      rw [List.get_of_eq heq ⟨i, by omega⟩]
      simp [List.get_eq_getElem, List.getElem_map]
    rw [hget, hround _ (List.get_mem _ _ _)]
    exact chunkGroups_sizes B hB (pySplit text) i hlen
  · rw [heq, List.map_map]
    have hmapid : (chunkGroups B (pySplit text)).map (pySplit ∘ joinWords) =
        (chunkGroups B (pySplit text)).map id :=
      List.map_congr_left (fun g hg => hround g hg)
    rw [hmapid, List.map_id, chunkGroups_flatten]
  · intro c hc
    rw [heq] at hc
    rcases List.mem_map.mp hc with ⟨g, hg, rfl⟩
    exact joinWords_ne_nil g (chunkGroups_ne_nil B _ g hg)
      (fun w hw => (pySplit_sound text w (chunkGroups_subset B _ g hg w hw)).1)
  · intro hnil
    rw [heq, hnil]
    rfl

/-- Witness for chunk_text_spec at text "a b c" and budget 2. -/
theorem chunk_text_spec_witness :
    0 < 2 ∧
    (chunk_text "a b c".toList 2 = (chunkGroups 2 (pySplit "a b c".toList)).map joinWords ∧
     (chunk_text "a b c".toList 2).length = ((pySplit "a b c".toList).length + 2 - 1) / 2 ∧
     (∀ i (h : i + 1 < (chunk_text "a b c".toList 2).length),
       (pySplit ((chunk_text "a b c".toList 2).get ⟨i, by omega⟩)).length = 2) ∧
     ((chunk_text "a b c".toList 2).map pySplit).flatten = pySplit "a b c".toList ∧
     (∀ c ∈ chunk_text "a b c".toList 2, c ≠ []) ∧
     (pySplit "a b c".toList = [] → chunk_text "a b c".toList 2 = [])) :=
  ⟨by decide, chunk_text_spec "a b c".toList 2 (by decide)⟩

/-- find?, searching by question over a catalog without duplicate questions,
returns a member with that question. -/
theorem find?_question_eq {l : List Riddle} (hnd : (l.map Riddle.question).Nodup) {r : Riddle}
    (hr : r ∈ l) :
    l.find? (fun x => decide ((some r.question : Option String) = some x.question)) = some r := by
  induction l with
  | nil => simp at hr
  | cons a t ih =>
    rw [List.map_cons, List.nodup_cons] at hnd
    rcases List.mem_cons.mp hr with rfl | hrt
    · rw [List.find?_cons_of_pos _ (by simp)]
    · have hne : r.question ≠ a.question := by
        intro he
        exact hnd.1 (he ▸ List.mem_map_of_mem Riddle.question hrt)
      rw [List.find?_cons_of_neg _ (by simp [hne]), ih hnd.2 hrt]

/-- C3: when the recorded last_riddle matches catalog entry r, verify_answer
compares the stripped lower-cased answer with the exact catalog answer; on
match it sets last_chat_date to today and returns the success message, on
mismatch it returns the fixed retry message (independent of the riddle and of
its answer) and leaves the state unchanged. -/
theorem verify_answer_spec (st : UserState) (today answer : String) (r : Riddle)
    (hmem : r ∈ riddles) (hq : st.last_riddle = some (some r.question)) :
    verify_answer today answer st =
      if pyStripLower answer = r.answer then
        (.ok "Correct! You have successfully ended today\x27s chat. See you tomorrow!",
          { st with last_chat_date := some (some today) })
      else (.ok "Incorrect answer! Try again.", st) := by
  have hstep : verify_answer today answer st =
      match riddles.find? (fun x => decide ((some r.question : Option String) = some x.question)) with
      | none => (.serverError "Something went wrong!", st)
      | some rr =>
        if pyStripLower answer = rr.answer then
          (.ok "Correct! You have successfully ended today\x27s chat. See you tomorrow!",
            { st with last_chat_date := some (some today) })
        else (.ok "Incorrect answer! Try again.", st) := by
    unfold verify_answer
    rw [hq]
  rw [hstep, find?_question_eq (by decide) hmem]

/-- Witness for verify_answer_spec: a user holding the footsteps riddle answers
with extra whitespace and capital letters and still succeeds. -/
theorem verify_answer_spec_witness :
    (⟨"The more you take, the more you leave behind. What am I?", "footsteps"⟩ : Riddle) ∈
        riddles ∧
    verify_answer "2026-01-02" "  FootSteps "
        ⟨none, some (some "The more you take, the more you leave behind. What am I?"),
          none, none, []⟩ =
      if pyStripLower "  FootSteps " =
          (⟨"The more you take, the more you leave behind. What am I?", "footsteps"⟩ : Riddle).answer
      then
        (.ok "Correct! You have successfully ended today\x27s chat. See you tomorrow!",
          { (⟨none, some (some "The more you take, the more you leave behind. What am I?"),
              none, none, []⟩ : UserState) with last_chat_date := some (some "2026-01-02") })
      else (.ok "Incorrect answer! Try again.",
        ⟨none, some (some "The more you take, the more you leave behind. What am I?"),
          none, none, []⟩) :=
  ⟨by decide,
    verify_answer_spec _ "2026-01-02" "  FootSteps "
      ⟨"The more you take, the more you leave behind. What am I?", "footsteps"⟩
      (by decide) rfl⟩

/-- C4 counterexample: a pre-existing user record with created_at 5 has that
creation timestamp overwritten (to the new server time 10) by the user-record
upsert of store_chat, so store_chat does not preserve created_at. -/
theorem store_chat_overwrites_created_at :
    (store_chat 10 "2026-01-01" "hi" ⟨some 5, none, none, none, []⟩).created_at = some 10 ∧
    (store_chat 10 "2026-01-01" "hi" ⟨some 5, none, none, none, []⟩).created_at ≠ some 5 := by
  exact ⟨rfl, by decide⟩

/-- C4 amended: the user-record upsert of store_chat always writes created_at
with the current server timestamp, overwriting any existing value, while every
other user field (last_riddle, last_chat_date, profile) is unchanged. -/
theorem store_chat_upsert (st : UserState) (now : Int) (today msg : String) :
    (store_chat now today msg st).created_at = some now ∧
    (store_chat now today msg st).last_riddle = st.last_riddle ∧
    (store_chat now today msg st).last_chat_date = st.last_chat_date ∧
    (store_chat now today msg st).profile = st.profile :=
  ⟨rfl, rfl, rfl, rfl⟩

/-- C6: when last_chat_date equals today, get_riddle returns the come-back
message and leaves the user state entirely unchanged. -/
theorem get_riddle_completed_today (st : UserState) (today : String) (pick : Nat)
    (h : st.last_chat_date = some (some today)) :
    get_riddle today pick st =
      (.message "You have already ended today\x27s chat. Come back tomorrow!", st) := by
  unfold get_riddle get_riddle_cat
  rw [h]
  simp [Option.join]

/-- Witness for get_riddle_completed_today at a concrete completed state. -/
theorem get_riddle_completed_today_witness :
    get_riddle "2026-01-01" 0 ⟨none, none, some (some "2026-01-01"), none, []⟩ =
      (.message "You have already ended today\x27s chat. Come back tomorrow!",
        ⟨none, none, some (some "2026-01-01"), none, []⟩) :=
  get_riddle_completed_today _ "2026-01-01" 0 rfl

/-- C7: with no last_riddle recorded, verify_answer fails with the HTTP 400
client error for every submitted answer and leaves the state unchanged. -/
theorem verify_answer_no_riddle (st : UserState) (today answer : String)
    (h : st.last_riddle = none) :
    verify_answer today answer st = (.clientError "You haven\x27t taken a riddle yet!", st) := by
  unfold verify_answer
  rw [h]

/-- Witness for verify_answer_no_riddle at the untouched user record. -/
theorem verify_answer_no_riddle_witness :
    verify_answer "2026-01-01" "an echo" initState =
      (.clientError "You haven\x27t taken a riddle yet!", initState) :=
  verify_answer_no_riddle initState "2026-01-01" "an echo" rfl

/-- getD at an index reduced modulo the length of a nonempty list is a member;
this is how the modelled random.choice selects. -/
theorem getD_mod_mem {α : Type} (l : List α) (d : α) (i : Nat) (h : l ≠ []) :
    l.getD (i % l.length) d ∈ l := by
  have hlen : 0 < l.length := List.length_pos.mpr h
  have hlt : i % l.length < l.length := Nat.mod_lt _ hlen
  rw [List.getD_eq_getElem?_getD, List.getElem?_eq_getElem hlt, Option.getD_some]
  exact List.getElem_mem hlt

/-- C5: with a recorded previous question Q and a not-completed-today state,
get_riddle over any catalog of at least two entries with pairwise distinct
questions returns a question different from Q under every random pick; and
when every catalog question equals Q, the candidate selection falls back to
the full catalog. -/
theorem get_riddle_no_repeat (catalog : List Riddle) (st : UserState) (today Q : String)
    (hdate : st.last_chat_date.join ≠ some today)
    (hprev : st.last_riddle.join = some Q) :
    (2 ≤ catalog.length → (catalog.map Riddle.question).Nodup →
      ∀ pick, ∃ q, (get_riddle_cat catalog today pick st).1 = .riddle q ∧ q ≠ Q) ∧
    ((∀ r ∈ catalog, r.question = Q) → availableRiddles catalog (some Q) = catalog) := by
  constructor
  · intro hlen hnd pick
    unfold get_riddle_cat
    rw [if_neg hdate, hprev]
    have hfne : catalog.filter (fun r => decide ((some r.question : Option String) ≠ some Q)) ≠
        [] := by
      intro hnil
      have hall : ∀ r ∈ catalog, r.question = Q := by
        intro r hr
        have := List.filter_eq_nil_iff.mp hnil r hr
        simpa using this
      match catalog, hlen, hnd, hall with
      | a :: b :: t, _, hnd, hall =>
        rw [List.map_cons, List.nodup_cons] at hnd
        apply hnd.1
        have hab : a.question = b.question := by
          rw [hall a (by simp), hall b (by simp)]
        rw [List.map_cons, hab]
        simp
    have havail : availableRiddles catalog (some Q) =
        catalog.filter (fun r => decide ((some r.question : Option String) ≠ some Q)) := by
      simp only [availableRiddles]
      exact if_neg (fun hc => hfne (List.isEmpty_iff.mp hc))
    refine ⟨_, rfl, ?_⟩
    rw [havail]
    have hmem := getD_mod_mem
      (catalog.filter (fun r => decide ((some r.question : Option String) ≠ some Q)))
      (⟨"", ""⟩ : Riddle) pick hfne
    have hq := (List.mem_filter.mp hmem).2
    simpa using hq
  · intro hall
    have hnil : catalog.filter (fun r => decide ((some r.question : Option String) ≠ some Q)) =
        [] := by
      rw [List.filter_eq_nil_iff]
      intro r hr
      simp [hall r hr]
    simp only [availableRiddles, hnil, List.isEmpty_nil, if_true]

/-- Witness for get_riddle_no_repeat: catalog = the static riddles list, with
the footsteps question recorded as the previous riddle. -/
theorem get_riddle_no_repeat_witness :
    (2 ≤ riddles.length → (riddles.map Riddle.question).Nodup →
      ∀ pick, ∃ q, (get_riddle_cat riddles "2026-01-01" pick
        ⟨none, some (some "The more you take, the more you leave behind. What am I?"),
          none, none, []⟩).1 = .riddle q ∧
        q ≠ "The more you take, the more you leave behind. What am I?") ∧
    ((∀ r ∈ riddles,
        r.question = "The more you take, the more you leave behind. What am I?") →
      availableRiddles riddles
          (some "The more you take, the more you leave behind. What am I?") = riddles) :=
  get_riddle_no_repeat riddles
    ⟨none, some (some "The more you take, the more you leave behind. What am I?"),
      none, none, []⟩
    "2026-01-01" "The more you take, the more you leave behind. What am I?" (by decide) rfl

/-- An entry of the updated chats collection is the written entry or an entry of
the original collection. -/
theorem setChat_mem (day : String) (doc : ChatDoc) :
    ∀ (l : List (String × ChatDoc)), ∀ p ∈ setChat day doc l, p = (day, doc) ∨ p ∈ l := by
  intro l
  induction l with
  | nil =>
    intro p hp
    simp only [setChat, List.mem_singleton] at hp
    exact Or.inl hp
  | cons a rest ih =>
    intro p hp
    match a with
    | (d, x) =>
      simp only [setChat] at hp
      by_cases hd : d = day
      · rw [if_pos hd] at hp
        rcases List.mem_cons.mp hp with rfl | hp
        · exact Or.inl (by rw [hd])
        · exact Or.inr (List.mem_cons_of_mem _ hp)
      · rw [if_neg hd] at hp
        rcases List.mem_cons.mp hp with rfl | hp
        · exact Or.inr (List.mem_cons_self _ _)
        · rcases ih p hp with h | h
          · exact Or.inl h
          · exact Or.inr (List.mem_cons_of_mem _ h)

/-- A successful getChat lookup is a member of the collection. -/
theorem getChat_mem (day : String) :
    ∀ (l : List (String × ChatDoc)) (doc : ChatDoc),
      getChat day l = some doc → (day, doc) ∈ l := by
  intro l
  induction l with
  | nil => intro doc h; simp [getChat] at h
  | cons a rest ih =>
    intro doc h
    match a with
    | (d, x) =>
      simp only [getChat] at h
      by_cases hd : d = day
      · rw [if_pos hd] at h
        have hx := Option.some.inj h
        subst hd
        subst hx
        exact List.mem_cons_self _ _
      · rw [if_neg hd] at h
        exact List.mem_cons_of_mem _ (ih doc h)

/-- Unfolding verify_answer when the last_riddle key is present. -/
theorem verify_answer_cases (today answer : String) (st : UserState) (lr : Option String)
    (hlr : st.last_riddle = some lr) :
    verify_answer today answer st =
      match riddles.find? (fun r => decide (lr = some r.question)) with
      | none => (.serverError "Something went wrong!", st)
      | some r =>
        if pyStripLower answer = r.answer then
          (.ok "Correct! You have successfully ended today\x27s chat. See you tomorrow!",
            { st with last_chat_date := some (some today) })
        else (.ok "Incorrect answer! Try again.", st) := by
  unfold verify_answer
  rw [hlr]

/-- verify_answer either leaves the state unchanged or only sets last_chat_date
to today. -/
theorem verify_answer_state (today answer : String) (st : UserState) :
    (verify_answer today answer st).2 = st ∨
    (verify_answer today answer st).2 = { st with last_chat_date := some (some today) } := by
  rcases hlr : st.last_riddle with _ | lr
  · left
    unfold verify_answer
    rw [hlr]
  · rw [verify_answer_cases today answer st lr hlr]
    split
    · exact Or.inl rfl
    · split
      · right
        rw [hlr]
      · exact Or.inl rfl

/-- The riddle candidates are catalog entries. -/
theorem availableRiddles_subset (catalog : List Riddle) (prev : Option String) :
    ∀ r ∈ availableRiddles catalog prev, r ∈ catalog := by
  intro r hr
  simp only [availableRiddles] at hr
  by_cases hemp :
      (catalog.filter (fun x => decide ((some x.question : Option String) ≠ prev))).isEmpty = true
  · rw [if_pos hemp] at hr
    exact hr
  · rw [if_neg hemp] at hr
    exact (List.mem_filter.mp hr).1

/-- The riddle candidates of a nonempty catalog are nonempty (the fallback
guarantees it). -/
theorem availableRiddles_ne_nil (catalog : List Riddle) (prev : Option String)
    (hc : catalog ≠ []) : availableRiddles catalog prev ≠ [] := by
  simp only [availableRiddles]
  by_cases hemp :
      (catalog.filter (fun x => decide ((some x.question : Option String) ≠ prev))).isEmpty = true
  · rw [if_pos hemp]
    exact hc
  · rw [if_neg hemp]
    exact fun hnil => hemp (by rw [hnil]; rfl)

/-- Invariant maintained by every API operation: a present last_riddle always
holds a question of the static catalog (never null), and no chat-day document
carries a top-level timestamp field. -/
def StateInv (st : UserState) : Prop :=
  (∀ q, st.last_riddle = some (some q) → ∃ r ∈ riddles, r.question = q) ∧
  st.last_riddle ≠ some none ∧
  (∀ p ∈ st.chats, (p.2 : ChatDoc).timestamp = none)

/-- Every reachable user state satisfies the invariant. -/
theorem reachable_inv (st : UserState) (h : Reachable st) : StateInv st := by
  induction h with
  | init =>
    refine ⟨?_, ?_, ?_⟩
    · intro q hq
      simp [initState] at hq
    · simp [initState]
    · intro p hp
      simp [initState] at hp
  | store now today message hr ih =>
    rename_i st0
    refine ⟨ih.1, ih.2.1, ?_⟩
    intro p hp
    have hdoc : ((getChat today st0.chats).getD ⟨[], none⟩).timestamp = none := by
      cases hg : getChat today st0.chats with
      | none => rfl
      | some d0 =>
        simp only [Option.getD_some]
        exact ih.2.2 (today, d0) (getChat_mem today st0.chats d0 hg)
    rcases setChat_mem today _ st0.chats p hp with rfl | hold
    · exact hdoc
    · exact ih.2.2 p hold
  | profile name pfp hr ih =>
    exact ⟨ih.1, ih.2.1, ih.2.2⟩
  | riddle today pick hr ih =>
    rename_i st0
    unfold get_riddle get_riddle_cat
    by_cases hc : st0.last_chat_date.join = some today
    · rw [if_pos hc]
      exact ih
    · rw [if_neg hc]
      refine ⟨?_, ?_, ?_⟩
      · intro q hq
        have hq2 : some (some (((availableRiddles riddles st0.last_riddle.join).getD
            (pick % (availableRiddles riddles st0.last_riddle.join).length)
            ⟨"", ""⟩).question : String)) = some (some q) := hq
        have hqeq := Option.some.inj (Option.some.inj hq2)
        refine ⟨_, ?_, hqeq⟩
        exact availableRiddles_subset riddles _ _
          (getD_mod_mem _ _ pick (availableRiddles_ne_nil riddles _ (by decide)))
      · intro hcontra
        have : (some (some (((availableRiddles riddles st0.last_riddle.join).getD
            (pick % (availableRiddles riddles st0.last_riddle.join).length)
            ⟨"", ""⟩).question : String)) : Option (Option String)) = some none := hcontra
        simp at this
      · exact ih.2.2
  | verify today answer hr ih =>
    rename_i st0
    rcases verify_answer_state today answer st0 with heq | heq <;> rw [heq]
    · exact ih
    · exact ⟨ih.1, ih.2.1, ih.2.2⟩

/-- C8: in every user state reachable through the API operations, a present
last_riddle is the question of some entry of the static catalog, and
consequently the HTTP 500 branch of verify_answer (unmatched last_riddle) is
unreachable. -/
theorem reachable_riddle_catalog (st : UserState) (h : Reachable st) :
    (∀ q, st.last_riddle = some (some q) → ∃ r ∈ riddles, r.question = q) ∧
    (∀ today answer d, (verify_answer today answer st).1 ≠ .serverError d) := by
  have hinv := reachable_inv st h
  refine ⟨hinv.1, ?_⟩
  intro today answer d
  rcases hlr : st.last_riddle with _ | lr
  · unfold verify_answer
    rw [hlr]
    simp
  · rcases lr with _ | q
    · exact absurd hlr hinv.2.1
    · obtain ⟨r, hrmem, hrq⟩ := hinv.1 q hlr
      rw [verify_answer_cases today answer st (some q) hlr]
      have hfind : riddles.find?
          (fun x => decide ((some q : Option String) = some x.question)) = some r := by
        subst hrq
        exact find?_question_eq (by decide) hrmem
      rw [hfind]
      intro hcontra
      by_cases hc : pyStripLower answer = r.answer
      · simp [hc] at hcontra
      · simp [hc] at hcontra

/-- Witness for reachable_riddle_catalog at the initial state. -/
theorem reachable_riddle_catalog_witness :
    (∀ q, initState.last_riddle = some (some q) → ∃ r ∈ riddles, r.question = q) ∧
    (∀ today answer d, (verify_answer today answer initState).1 ≠ .serverError d) :=
  reachable_riddle_catalog initState Reachable.init

/-- C9: in a reachable user state in which no stored message has a timestamp
inside the trailing 7-day window, summarize_chats returns exactly the sentinel
string and the external summarizer is invoked zero times. -/
theorem summarize_no_messages (st : UserState) (now : Int) (h : Reachable st)
    (hnone : ∀ p ∈ st.chats, ∀ m ∈ (p.2 : ChatDoc).messages,
      ¬(windowStart now ≤ m.timestamp ∧ m.timestamp ≤ now)) :
    (∀ f, summarize_chats f now st = "No messages found in the past 7 days.") ∧
    summarizerCalls now st = 0 := by
  have hinv := reachable_inv st h
  have hquery : queryChatDocs now st = [] := by
    unfold queryChatDocs
    rw [List.filter_eq_nil_iff]
    intro d hd
    rcases List.mem_map.mp hd with ⟨p, hp, rfl⟩
    simp [hinv.2.2 p hp]
  have hret : retrievedMessages now st = [] := by
    unfold retrievedMessages
    rw [hquery]
    rfl
  constructor
  · intro f
    unfold summarize_chats
    rw [hret]
    rfl
  · unfold summarizerCalls
    rw [hret]
    rfl

/-- Witness for summarize_no_messages at the initial state. -/
theorem summarize_no_messages_witness :
    (∀ f, summarize_chats f 0 initState = "No messages found in the past 7 days.") ∧
    summarizerCalls 0 initState = 0 :=
  summarize_no_messages initState 0 Reachable.init
    (by intro p hp; simp [initState] at hp)

/-- C2: divergence witness. Storing "hello" at server time 1000 into an empty
user record places a message with the in-window timestamp 1000 in the chats
collection, yet the summarization query retrieves nothing (the chat-day
document carries no top-level timestamp field, which the Firestore range
filter requires) and summarize_chats returns the no-messages sentinel, so the
in-window message stored by store_chat is not included in the retrieved set. -/
theorem summarize_misses_stored_message :
    (∃ p ∈ (store_chat 1000 "2026-01-01" "hello" initState).chats,
      ∃ m ∈ (p.2 : ChatDoc).messages,
        windowStart 1000 ≤ m.timestamp ∧ m.timestamp ≤ 1000) ∧
    retrievedMessages 1000 (store_chat 1000 "2026-01-01" "hello" initState) = [] ∧
    summarize_chats (fun _ => "SUMMARY") 1000 (store_chat 1000 "2026-01-01" "hello" initState) =
      "No messages found in the past 7 days." := by
  refine ⟨⟨("2026-01-01", ⟨[⟨"hello", 1000⟩], none⟩), by decide,
    ⟨"hello", 1000⟩, by decide, by decide, by decide⟩, by decide, by decide⟩

/-- A head of a dropWhile result never satisfies the predicate. -/
theorem head?_dropWhile {p : Char → Bool} : ∀ (l : List Char) (c : Char),
    (l.dropWhile p).head? = some c → p c = false := by
  intro l
  induction l with
  | nil => intro c h; simp at h
  | cons a t ih =>
    intro c h
    cases hpa : p a
    · rw [List.dropWhile_cons, hpa] at h
      simp only [Bool.false_eq_true, if_false, List.head?_cons] at h
      have hac := Option.some.inj h
      subst hac
      exact hpa
    · rw [List.dropWhile_cons, hpa, if_pos rfl] at h
      exact ih c h

/-- dropWhile is the identity when the head does not satisfy the predicate. -/
theorem dropWhile_eq_self_of_head {p : Char → Bool} (l : List Char)
    (h : ∀ c, l.head? = some c → p c = false) : l.dropWhile p = l := by
  cases l with
  | nil => rfl
  | cons a t =>
    rw [List.dropWhile_cons, h a (by rw [List.head?_cons])]
    simp

/-- A nonempty dropWhile result keeps the last element of the list. -/
theorem getLast?_dropWhile {p : Char → Bool} (l : List Char)
    (h : l.dropWhile p ≠ []) : (l.dropWhile p).getLast? = l.getLast? := by
  obtain ⟨t, ht⟩ := List.dropWhile_suffix (l := l) p
  conv_rhs => rw [← ht]
  exact (List.getLast?_append_of_ne_nil t h).symm

/-- Characters of pyStrip come from the input. -/
theorem pyStrip_subset (l : List Char) : ∀ c ∈ pyStrip l, c ∈ l := by
  intro c hc
  unfold pyStrip at hc
  rw [List.mem_reverse] at hc
  have hc2 := (List.dropWhile_suffix pyIsSpace).subset hc
  rw [List.mem_reverse] at hc2
  exact (List.dropWhile_suffix pyIsSpace).subset hc2

/-- The first character of a pyStrip result is not whitespace. -/
theorem pyStrip_head {l : List Char} {c : Char} (h : (pyStrip l).head? = some c) :
    pyIsSpace c = false := by
  unfold pyStrip at h
  rw [List.head?_reverse] at h
  have hne : ((l.dropWhile pyIsSpace).reverse).dropWhile pyIsSpace ≠ [] := by
    intro hnil
    rw [hnil] at h
    simp at h
  rw [getLast?_dropWhile _ hne, List.getLast?_reverse] at h
  exact head?_dropWhile l c h

/-- The last character of a pyStrip result is not whitespace. -/
theorem pyStrip_getLast {l : List Char} {c : Char} (h : (pyStrip l).getLast? = some c) :
    pyIsSpace c = false := by
  unfold pyStrip at h
  rw [List.getLast?_reverse] at h
  exact head?_dropWhile _ c h

/-- pyStrip is idempotent. -/
theorem pyStrip_pyStrip (l : List Char) : pyStrip (pyStrip l) = pyStrip l := by
  have hhead : (pyStrip l).dropWhile pyIsSpace = pyStrip l :=
    dropWhile_eq_self_of_head _ (fun c hc => pyStrip_head hc)
  have hlast : (pyStrip l).reverse.dropWhile pyIsSpace = (pyStrip l).reverse := by
    apply dropWhile_eq_self_of_head
    intro c hc
    rw [List.head?_reverse] at hc
    exact pyStrip_getLast hc
  show (((pyStrip l).dropWhile pyIsSpace).reverse.dropWhile pyIsSpace).reverse = pyStrip l
  rw [hhead, hlast, List.reverse_reverse]

/-- C10: sanitize_text keeps only ASCII letters, digits and whitespace, never
starts or ends with whitespace (so remaining whitespace is internal), and is
idempotent. -/
theorem sanitize_text_spec (s : List Char) :
    (∀ c ∈ sanitize_text s, (c.isAlphanum || pyIsSpace c) = true) ∧
    (∀ c, (sanitize_text s).head? = some c → pyIsSpace c = false) ∧
    (∀ c, (sanitize_text s).getLast? = some c → pyIsSpace c = false) ∧
    sanitize_text (sanitize_text s) = sanitize_text s := by
  refine ⟨?_, ?_, ?_, ?_⟩
  · intro c hc
    unfold sanitize_text at hc
    exact (List.mem_filter.mp (pyStrip_subset _ c hc)).2
  · intro c hc
    exact pyStrip_head hc
  · intro c hc
    exact pyStrip_getLast hc
  · have hfilter : (sanitize_text s).filter (fun c => c.isAlphanum || pyIsSpace c) =
        sanitize_text s := by
      rw [List.filter_eq_self]
      intro c hc
      unfold sanitize_text at hc
      exact (List.mem_filter.mp (pyStrip_subset _ c hc)).2
    show pyStrip ((sanitize_text s).filter (fun c => c.isAlphanum || pyIsSpace c)) =
      sanitize_text s
    rw [hfilter]
    exact pyStrip_pyStrip (s.filter (fun c => c.isAlphanum || pyIsSpace c))

/-- Witness for sanitize_text_spec on a concrete dirty string. -/
theorem sanitize_text_spec_witness :
    (∀ c ∈ sanitize_text "  a!b c?  ".toList, (c.isAlphanum || pyIsSpace c) = true) ∧
    (∀ c, (sanitize_text "  a!b c?  ".toList).head? = some c → pyIsSpace c = false) ∧
    (∀ c, (sanitize_text "  a!b c?  ".toList).getLast? = some c → pyIsSpace c = false) ∧
    sanitize_text (sanitize_text "  a!b c?  ".toList) = sanitize_text "  a!b c?  ".toList :=
  sanitize_text_spec "  a!b c?  ".toList

end AIDiary
